import Mathlib

/-!
Verification of the state-synchronization and event-bridge core of
`streamlit-html-components`.

The development shallowly embeds the Python sources:
* `src/streamlit_html_components/bidirectional/bridge.py` (`BidirectionalBridge`),
* `src/streamlit_html_components/cache_manager.py` (`CacheManager`),
and, where the repository ships only tests for a module
(`bidirectional/sync.py` is absent from the source tree), models the missing
module from the specification text.

Python dictionaries with string keys are embedded as association lists
`List (String × α)`; JSON-serializable Python values are embedded as the
inductive type `Value`.
-/

set_option autoImplicit false

/-- JSON-serializable Python values: `None`, booleans, (integer) numbers,
strings, lists and string-keyed dictionaries. -/
inductive Value where
  | null : Value
  | bool (b : Bool) : Value
  | num (n : Int) : Value
  | str (s : String) : Value
  | arr (elems : List Value) : Value
  | obj (fields : List (String × Value)) : Value

mutual

/-- Structural (Python `==`-style) boolean equality on embedded values. -/
def Value.beq : Value → Value → Bool
  | .null, .null => true
  | .bool a, .bool b => a == b
  | .num a, .num b => a == b
  | .str a, .str b => a == b
  | .arr a, .arr b => Value.beqList a b
  | .obj a, .obj b => Value.beqFields a b
  | _, _ => false

/-- Pointwise `Value.beq` on lists. -/
def Value.beqList : List Value → List Value → Bool
  | [], [] => true
  | x :: xs, y :: ys => Value.beq x y && Value.beqList xs ys
  | _, _ => false

/-- Pointwise `Value.beq` on dict entry lists. -/
def Value.beqFields : List (String × Value) → List (String × Value) → Bool
  | [], [] => true
  | (k1, v1) :: xs, (k2, v2) :: ys => k1 == k2 && Value.beq v1 v2 && Value.beqFields xs ys
  | _, _ => false

end

mutual

theorem Value.beq_sound : ∀ (a b : Value), Value.beq a b = true → a = b
  | .null, .null, _ => rfl
  | .bool a, .bool b, h => by
      simp only [Value.beq, beq_iff_eq] at h; rw [h]
  | .num a, .num b, h => by
      simp only [Value.beq, beq_iff_eq] at h; rw [h]
  | .str a, .str b, h => by
      simp only [Value.beq, beq_iff_eq] at h; rw [h]
  | .arr a, .arr b, h => by
      rw [Value.beqList_sound a b h]
  | .obj a, .obj b, h => by
      rw [Value.beqFields_sound a b h]

theorem Value.beqList_sound : ∀ (xs ys : List Value), Value.beqList xs ys = true → xs = ys
  | [], [], _ => rfl
  | x :: xs, y :: ys, h => by
      simp only [Value.beqList, Bool.and_eq_true] at h
      rw [Value.beq_sound x y h.1, Value.beqList_sound xs ys h.2]

theorem Value.beqFields_sound :
    ∀ (xs ys : List (String × Value)), Value.beqFields xs ys = true → xs = ys
  | [], [], _ => rfl
  | (k1, v1) :: xs, (k2, v2) :: ys, h => by
      simp only [Value.beqFields, Bool.and_eq_true, beq_iff_eq] at h
      rw [h.1.1, Value.beq_sound v1 v2 h.1.2, Value.beqFields_sound xs ys h.2]

end

mutual

theorem Value.beq_refl : ∀ (a : Value), Value.beq a a = true
  | .null => rfl
  | .bool a => by simp [Value.beq]
  | .num a => by simp [Value.beq]
  | .str a => by simp [Value.beq]
  | .arr a => Value.beqList_refl a
  | .obj a => Value.beqFields_refl a

theorem Value.beqList_refl : ∀ (xs : List Value), Value.beqList xs xs = true
  | [] => rfl
  | x :: xs => by
      simp only [Value.beqList, Bool.and_eq_true]
      exact ⟨Value.beq_refl x, Value.beqList_refl xs⟩

theorem Value.beqFields_refl : ∀ (xs : List (String × Value)), Value.beqFields xs xs = true
  | [] => rfl
  | (k, v) :: xs => by
      simp only [Value.beqFields, Bool.and_eq_true, beq_self_eq_true]
      exact ⟨⟨trivial, Value.beq_refl v⟩, Value.beqFields_refl xs⟩

end

theorem Value.beq_iff_eq (a b : Value) : Value.beq a b = true ↔ a = b :=
  ⟨Value.beq_sound a b, fun h => h ▸ Value.beq_refl a⟩

instance : DecidableEq Value := fun a b =>
  decidable_of_iff (Value.beq a b = true) (Value.beq_iff_eq a b)

/-- Python truthiness (`bool(v)`): `None`, `False`, `0`, `""`, `[]`, `{}`
are falsy, everything else is truthy. -/
def Value.truthy : Value → Bool
  | .null => false
  | .bool b => b
  | .num n => n != 0
  | .str s => s != ""
  | .arr l => !l.isEmpty
  | .obj l => !l.isEmpty

mutual

/-- Python `str(v)` as used by f-string interpolation.  Exact on the scalar
values the bridge actually interpolates (strings render verbatim); containers
render in a Python-`repr`-like form. -/
def Value.pyStr : Value → String
  | .null => "None"
  | .bool true => "True"
  | .bool false => "False"
  | .num n => toString n
  | .str s => s
  | .arr l => "[" ++ Value.pyStrList l ++ "]"
  | .obj l => "\x7b" ++ Value.pyStrFields l ++ "\x7d"

/-- Comma-separated rendering of list elements. -/
def Value.pyStrList : List Value → String
  | [] => ""
  | [x] => Value.pyStr x
  | x :: xs => Value.pyStr x ++ ", " ++ Value.pyStrList xs

/-- Comma-separated rendering of dict entries. -/
def Value.pyStrFields : List (String × Value) → String
  | [] => ""
  | [(k, v)] => k ++ ": " ++ Value.pyStr v
  | (k, v) :: xs => k ++ ": " ++ Value.pyStr v ++ ", " ++ Value.pyStrFields xs

end

/-! ### Association lists embedding Python `dict` -/

/-- `d.get(k)` / `d[k]` on a Python dict embedded as an association list:
the value of the unique entry with key `k`, if any. -/
def lookupKey {α : Type} (k : String) : List (String × α) → Option α
  | [] => none
  | (k', v) :: t => if k' = k then some v else lookupKey k t

/-- `d[k] = v` on a Python dict: replace the entry with key `k` in place,
or append a fresh entry at the end. -/
def setKey {α : Type} : List (String × α) → String → α → List (String × α)
  | [], k, v => [(k, v)]
  | (k', v') :: t, k, v => if k' = k then (k, v) :: t else (k', v') :: setKey t k v

/-- `del d[k]` on a Python dict: drop the (first) entry with key `k`. -/
def eraseKey {α : Type} : List (String × α) → String → List (String × α)
  | [], _ => []
  | (k', v') :: t, k => if k' = k then t else (k', v') :: eraseKey t k

/-- The keys of an embedded dict, in insertion order. -/
def keysOf {α : Type} (l : List (String × α)) : List String := l.map Prod.fst

/-- A well-formed embedded dict has pairwise distinct keys
(Python dicts cannot hold a key twice). -/
def KeysNodup {α : Type} (l : List (String × α)) : Prop := (keysOf l).Nodup

instance {α : Type} (l : List (String × α)) : Decidable (KeysNodup l) := by
  unfold KeysNodup; infer_instance

@[simp] theorem lookupKey_nil {α : Type} (k : String) :
    lookupKey k ([] : List (String × α)) = none := rfl

theorem lookupKey_cons {α : Type} (k k' : String) (v : α) (t : List (String × α)) :
    lookupKey k ((k', v) :: t) = if k' = k then some v else lookupKey k t := rfl

@[simp] theorem keysOf_nil {α : Type} : keysOf ([] : List (String × α)) = [] := rfl

@[simp] theorem keysOf_cons {α : Type} (p : String × α) (t : List (String × α)) :
    keysOf (p :: t) = p.1 :: keysOf t := rfl

theorem lookupKey_eq_none_of_not_mem {α : Type} (k : String) (l : List (String × α))
    (h : k ∉ keysOf l) : lookupKey k l = none := by
  induction l with
  | nil => rfl
  | cons p t ih =>
    cases p with
    | mk k' v =>
      simp only [keysOf_cons, List.mem_cons, not_or] at h
      simp only [lookupKey]
      rw [if_neg (fun he => h.1 he.symm), ih h.2]

theorem mem_keysOf_of_lookupKey {α : Type} (k : String) (l : List (String × α)) (v : α)
    (h : lookupKey k l = some v) : k ∈ keysOf l := by
  induction l with
  | nil => simp [lookupKey] at h
  | cons p t ih =>
    cases p with
    | mk k' v' =>
      simp only [lookupKey] at h
      by_cases he : k' = k
      · subst he; simp [keysOf]
      · rw [if_neg he] at h
        simpa [keysOf] using Or.inr (ih h)

theorem lookupKey_isSome_iff_mem {α : Type} (k : String) (l : List (String × α)) :
    (lookupKey k l).isSome ↔ k ∈ keysOf l := by
  induction l with
  | nil => simp [lookupKey, keysOf]
  | cons p t ih =>
    cases p with
    | mk k' v' =>
      simp only [lookupKey, keysOf_cons, List.mem_cons]
      by_cases he : k' = k
      · subst he; simp
      · rw [if_neg he, ih]
        have hne : ¬ k = k' := fun h => he h.symm
        constructor
        · exact Or.inr
        · rintro (h | h)
          · exact absurd h hne
          · exact h

theorem mem_of_lookupKey {α : Type} (k : String) (l : List (String × α)) (v : α)
    (h : lookupKey k l = some v) : (k, v) ∈ l := by
  induction l with
  | nil => simp [lookupKey] at h
  | cons p t ih =>
    cases p with
    | mk k' v' =>
      simp only [lookupKey] at h
      by_cases he : k' = k
      · subst he
        rw [if_pos rfl] at h
        injection h with h
        exact List.mem_cons.mpr (Or.inl (by rw [h]))
      · rw [if_neg he] at h
        exact List.mem_cons.mpr (Or.inr (ih h))

theorem lookupKey_of_mem_nodup {α : Type} (k : String) (l : List (String × α)) (v : α)
    (hn : KeysNodup l) (h : (k, v) ∈ l) : lookupKey k l = some v := by
  induction l with
  | nil => cases h
  | cons p t ih =>
    cases p with
    | mk k' v' =>
      unfold KeysNodup at hn
      simp only [keysOf_cons, List.nodup_cons] at hn
      rcases List.mem_cons.mp h with h | h
      · injection h with h1 h2
        subst h1
        simp [lookupKey, h2]
      · have hk : k' ≠ k := by
          intro he; subst he
          exact hn.1 (by simpa [keysOf] using List.mem_map_of_mem Prod.fst h)
        simp only [lookupKey, if_neg hk]
        exact ih hn.2 h

/-! ### `BidirectionalBridge` (src/streamlit_html_components/bidirectional/bridge.py)

The class stores exactly one field, `self._callbacks: Dict[str, Callable]`,
keyed by the f-string `f"{component_name}:{event_type}"`.  A Python callback
either returns normally or raises; we embed it as a function from its `data`
argument to `Except String Unit` (`.error` = raised exception message).
`handle_event` is embedded as a pure function that returns the bridge after
the call together with the observable effects of the call: which callback
invocations happened (registry key and `data` argument) and which error
messages were printed by the `except` handler. -/

/-- An event callback: receives the event's `data` dict, returns normally
or raises an exception carrying a message. -/
def Callback : Type := Value → Except String Unit

/-- The bridge state: the `_callbacks` dictionary, embedded as a partial map
from registry key to callback. -/
structure BidirectionalBridge where
  callbacks : String → Option Callback

/-- A bridge with no registered callbacks (`BidirectionalBridge.__init__`). -/
def emptyBridge : BidirectionalBridge := ⟨fun _ => none⟩

/-- `register_callback`: `self._callbacks[f"{component_name}:{event_type}"] = callback`. -/
def BidirectionalBridge.register_callback (b : BidirectionalBridge)
    (component_name event_type : String) (callback : Callback) : BidirectionalBridge :=
  ⟨fun k => if k = component_name ++ ":" ++ event_type then some callback else b.callbacks k⟩

/-- The observable outcome of one `handle_event` call: the bridge state after
the call, the callback invocations performed (registry key, `data` argument),
and the error messages printed by the `except Exception` handler. -/
structure HandleResult where
  bridge : BidirectionalBridge
  calls : List (String × Value)
  errors : List String

/-- `handle_event`: reads `event_data.get('event')`, returns early when it is
absent or falsy, looks up `self._callbacks[f"{component_name}:{event_type}"]`,
and if present invokes it with `event_data.get('data', {})` inside
`try/except Exception`, printing
`f"Error in component callback: {e}"` on failure. -/
def BidirectionalBridge.handle_event (b : BidirectionalBridge)
    (component_name : String) (event_data : List (String × Value)) : HandleResult :=
  match lookupKey "event" event_data with
  | none => ⟨b, [], []⟩
  | some ev =>
    if ev.truthy then
      let key := component_name ++ ":" ++ ev.pyStr
      match b.callbacks key with
      | none => ⟨b, [], []⟩
      | some cb =>
        let d := (lookupKey "data" event_data).getD (.obj [])
        match cb d with
        | .ok _ => ⟨b, [(key, d)], []⟩
        | .error e => ⟨b, [(key, d)], ["Error in component callback: " ++ e]⟩
    else ⟨b, [], []⟩

/-- A callback that always raises (used as a concrete test double). -/
def cbBoom : Callback := fun _ => .error "boom"

/-- A callback that always returns normally (concrete test double). -/
def cbOk : Callback := fun _ => .ok ()

/-- A bridge with the always-raising callback registered for `comp`/`click`. -/
def bBoom : BidirectionalBridge := emptyBridge.register_callback "comp" "click" cbBoom

/-- A bridge with the normally-returning callback registered for `widget`/`click`. -/
def bOk : BidirectionalBridge := emptyBridge.register_callback "widget" "click" cbOk

/-- C2: contrary to the claim, `BidirectionalBridge.handle_event` appends no
`Event` record to any per-component event log: the class stores only the
`_callbacks` dictionary (there is no event log), and on the repository's own
test input (`test_bidirectional_basic.py`, Test 4) the complete observable
outcome of `handle_event` is the unchanged bridge plus at most a callback
invocation — no record of the event is retained anywhere, with or without a
registered callback. -/
theorem handle_event_appends_no_event_record :
    emptyBridge.handle_event "widget"
        [("event", Value.str "click"), ("data", Value.obj [("id", Value.num 1)])]
      = ⟨emptyBridge, [], []⟩
    ∧ bOk.handle_event "widget"
        [("event", Value.str "click"), ("data", Value.obj [("id", Value.num 1)])]
      = ⟨bOk, [("widget:click", Value.obj [("id", Value.num 1)])], []⟩ :=
  ⟨rfl, rfl⟩

/-- C3: a callback that raises inside `handle_event` never propagates the
exception: the call returns normally, the whole bridge state (in particular
the `_callbacks` registry) is returned unchanged, and the only effect of the
failure is the printed error message from the `except Exception` handler. -/
theorem handle_event_swallows_callback_exception (b : BidirectionalBridge)
    (c : String) (p : List (String × Value)) (ev : Value) (f : Callback) (e : String)
    (hev : lookupKey "event" p = some ev) (ht : ev.truthy = true)
    (hcb : b.callbacks (c ++ ":" ++ ev.pyStr) = some f)
    (hrun : f ((lookupKey "data" p).getD (.obj [])) = .error e) :
    b.handle_event c p =
      ⟨b, [(c ++ ":" ++ ev.pyStr, (lookupKey "data" p).getD (.obj []))],
        ["Error in component callback: " ++ e]⟩ := by
  unfold BidirectionalBridge.handle_event
  rw [hev]
  simp only [ht, if_true, hcb, hrun]

/-- Witness for C3 at a concrete raising callback. -/
theorem handle_event_swallows_callback_exception_witness :
    bBoom.handle_event "comp" [("event", Value.str "click"), ("data", Value.obj [])] =
      ⟨bBoom, [("comp:click", Value.obj [])], ["Error in component callback: boom"]⟩ :=
  handle_event_swallows_callback_exception bBoom "comp"
    [("event", Value.str "click"), ("data", Value.obj [])]
    (Value.str "click") cbBoom "boom" rfl rfl rfl rfl

/-- C6: the callback registry holds one callback per
`f"{component_name}:{event_type}"` key — re-registering under the same
component name and event type replaces the earlier callback: the resulting
bridge is identical to one where only the later callback was ever registered,
the registry maps the key to the later callback, and every subsequent
`handle_event` behaves as if only the later callback had been registered. -/
theorem register_callback_last_wins (b : BidirectionalBridge) (c e : String)
    (f1 f2 : Callback) :
    ((b.register_callback c e f1).register_callback c e f2) = b.register_callback c e f2
    ∧ ((b.register_callback c e f1).register_callback c e f2).callbacks (c ++ ":" ++ e)
        = some f2
    ∧ ∀ (c0 : String) (p : List (String × Value)),
        ((b.register_callback c e f1).register_callback c e f2).handle_event c0 p
          = (b.register_callback c e f2).handle_event c0 p := by
  have hcal : ((b.register_callback c e f1).register_callback c e f2).callbacks
      = (b.register_callback c e f2).callbacks := by
    funext k
    by_cases hk : k = c ++ ":" ++ e <;>
      simp [BidirectionalBridge.register_callback, hk]
  have hb : ((b.register_callback c e f1).register_callback c e f2)
      = b.register_callback c e f2 := congrArg BidirectionalBridge.mk hcal
  refine ⟨hb, ?_, ?_⟩
  · rw [hb]
    simp [BidirectionalBridge.register_callback]
  · intro c0 p
    rw [hb]

/-- C8 (counterexample): registering a callback is *not* confined to its own
`(component_name, event_type)` pair.  The registry key is the plain string
concatenation `f"{component_name}:{event_type}"`, so the distinct pairs
`("a", "b:c")` and `("a:b", "c")` collide on the key `"a:b:c"`: registering a
callback for `("a", "b:c")` changes the callback that `handle_event`
dispatches for `("a:b", "c")` (from nothing to the freshly registered one,
observably so via the printed error of the raising callback). -/
theorem register_callback_cross_pair_counterexample :
    ((("a", "b:c") : String × String) ≠ (("a:b", "c") : String × String))
    ∧ (emptyBridge.register_callback "a" "b:c" cbBoom).callbacks ("a:b" ++ ":" ++ "c")
        ≠ emptyBridge.callbacks ("a:b" ++ ":" ++ "c")
    ∧ ((emptyBridge.register_callback "a" "b:c" cbBoom).handle_event "a:b"
          [("event", Value.str "c")]).errors
        ≠ (emptyBridge.handle_event "a:b" [("event", Value.str "c")]).errors := by
  refine ⟨by decide, ?_, ?_⟩
  · have h1 : (emptyBridge.register_callback "a" "b:c" cbBoom).callbacks
        ("a:b" ++ ":" ++ "c") = some cbBoom := rfl
    have h2 : emptyBridge.callbacks ("a:b" ++ ":" ++ "c") = none := rfl
    rw [h1, h2]
    simp
  · have h1 : ((emptyBridge.register_callback "a" "b:c" cbBoom).handle_event "a:b"
        [("event", Value.str "c")]).errors = ["Error in component callback: boom"] := rfl
    have h2 : (emptyBridge.handle_event "a:b" [("event", Value.str "c")]).errors = [] := rfl
    rw [h1, h2]
    simp

/-- C8 (amended): registering a callback affects only its own *registry key*
`f"{component_name}:{event_type}"`: whenever the concatenated keys of
`(c1, e1)` and `(c2, e2)` differ — in particular whenever the pairs are
distinct and the component names and event types contain no `":"` —
`register_callback c1 e1 f` leaves the callback that `handle_event`
dispatches for `(c2, e2)` unchanged, and the observable dispatch behaviour
(invocations and printed errors) for component `c2` with event `e2` is
unchanged. -/
theorem handle_event_dispatch_congr (b1 b2 : BidirectionalBridge) (c : String)
    (p : List (String × Value))
    (h : ∀ ev, lookupKey "event" p = some ev →
          b1.callbacks (c ++ ":" ++ ev.pyStr) = b2.callbacks (c ++ ":" ++ ev.pyStr)) :
    (b1.handle_event c p).calls = (b2.handle_event c p).calls
    ∧ (b1.handle_event c p).errors = (b2.handle_event c p).errors := by
  unfold BidirectionalBridge.handle_event
  cases hev : lookupKey "event" p with
  | none => exact ⟨rfl, rfl⟩
  | some ev =>
    cases ht : ev.truthy with
    | false =>
      simp only [ht]
      exact ⟨rfl, rfl⟩
    | true =>
      simp only [ht, if_true, h ev hev]
      cases b2.callbacks (c ++ ":" ++ ev.pyStr) with
      | none => exact ⟨rfl, rfl⟩
      | some cb =>
        dsimp only
        cases cb ((lookupKey "data" p).getD (.obj [])) with
        | ok u => exact ⟨rfl, rfl⟩
        | error e => exact ⟨rfl, rfl⟩

theorem register_callback_distinct_key_frame (b : BidirectionalBridge)
    (c1 e1 c2 e2 : String) (f : Callback)
    (h : c1 ++ ":" ++ e1 ≠ c2 ++ ":" ++ e2) :
    (b.register_callback c1 e1 f).callbacks (c2 ++ ":" ++ e2) = b.callbacks (c2 ++ ":" ++ e2)
    ∧ ∀ (p : List (String × Value)), lookupKey "event" p = some (.str e2) →
        ((b.register_callback c1 e1 f).handle_event c2 p).calls
            = (b.handle_event c2 p).calls
        ∧ ((b.register_callback c1 e1 f).handle_event c2 p).errors
            = (b.handle_event c2 p).errors := by
  have hcal : (b.register_callback c1 e1 f).callbacks (c2 ++ ":" ++ e2)
      = b.callbacks (c2 ++ ":" ++ e2) := by
    simp only [BidirectionalBridge.register_callback]
    rw [if_neg (fun he => h he.symm)]
  refine ⟨hcal, ?_⟩
  intro p hp
  refine handle_event_dispatch_congr _ b c2 p ?_
  intro ev hev
  rw [hp] at hev
  injection hev with hev
  rw [← hev]
  exact hcal

/-- Witness for the amended C8 at concrete colliding-free keys. -/
theorem register_callback_distinct_key_frame_witness :
    (emptyBridge.register_callback "a" "b" cbBoom).callbacks ("x" ++ ":" ++ "y")
      = emptyBridge.callbacks ("x" ++ ":" ++ "y") :=
  (register_callback_distinct_key_frame emptyBridge "a" "b" "x" "y" cbBoom (by decide)).1

/-- C10: when the payload's `event` field is absent or falsy (Python
`if not event_type: return`), `handle_event` is a complete no-op: it invokes
no callback, prints nothing, and returns the bridge (hence the callback
registry) unchanged. -/
theorem handle_event_falsy_event_is_noop (b : BidirectionalBridge) (c : String)
    (p : List (String × Value))
    (h : ∀ v, lookupKey "event" p = some v → v.truthy = false) :
    b.handle_event c p = ⟨b, [], []⟩ := by
  unfold BidirectionalBridge.handle_event
  cases hev : lookupKey "event" p with
  | none => rfl
  | some v =>
    simp only [h v hev]
    rfl

/-- Witness for C10 at the empty-string (falsy) event type. -/
theorem handle_event_falsy_event_is_noop_witness :
    emptyBridge.handle_event "comp" [("event", Value.str "")] = ⟨emptyBridge, [], []⟩ :=
  handle_event_falsy_event_is_noop emptyBridge "comp" [("event", Value.str "")]
    (by
      intro v hv
      simp only [lookupKey, if_pos rfl] at hv
      cases hv
      rfl)

/-! ### `CacheManager` (src/streamlit_html_components/cache_manager.py)

State: `self._render_cache: Dict[str, str]` and `self._timestamps: Dict[str, float]`
(timestamps embedded as `Nat`).  `invalidate(component_name)` with a non-None
argument iterates over `list(self._render_cache.keys())`, appends **every** key
to `keys_to_remove` (the code's own comment: "For now, we'll clear all cache
when component_name is specified"), and removes each entry from both dicts. -/

/-- The two dictionaries making up a `CacheManager`'s state. -/
structure CacheManager where
  render_cache : List (String × String)
  timestamps : List (String × Nat)

/-- `CacheManager._remove_entry`: delete `cache_key` from both dicts
(each `del` guarded by a membership test, so absent keys are a no-op). -/
def CacheManager.remove_entry (cm : CacheManager) (cache_key : String) : CacheManager :=
  ⟨eraseKey cm.render_cache cache_key, eraseKey cm.timestamps cache_key⟩

/-- `CacheManager.invalidate`: `None` clears both dicts; a component name
collects every key of `_render_cache` into `keys_to_remove` and removes each. -/
def CacheManager.invalidate (cm : CacheManager) (component_name : Option String) :
    CacheManager :=
  match component_name with
  | none => ⟨[], []⟩
  | some _ => (keysOf cm.render_cache).foldl (fun acc k => acc.remove_entry k) cm

theorem keysOf_eraseKey_sublist {α : Type} (l : List (String × α)) (k : String) :
    List.Sublist (keysOf (eraseKey l k)) (keysOf l) := by
  induction l with
  | nil => simp [eraseKey]
  | cons p t ih =>
    cases p with
    | mk k' v' =>
      simp only [eraseKey]
      by_cases he : k' = k
      · rw [if_pos he]
        exact (List.sublist_cons_self _ _)
      · rw [if_neg he]
        simpa using ih.cons₂ k'

theorem keysNodup_eraseKey {α : Type} (l : List (String × α)) (k : String)
    (h : KeysNodup l) : KeysNodup (eraseKey l k) :=
  (keysOf_eraseKey_sublist l k).nodup h

theorem mem_keysOf_eraseKey {α : Type} (l : List (String × α)) (k j : String)
    (hn : KeysNodup l) (h : j ∈ keysOf (eraseKey l k)) : j ∈ keysOf l ∧ j ≠ k := by
  induction l with
  | nil => simp [eraseKey] at h
  | cons p t ih =>
    cases p with
    | mk k' v' =>
      unfold KeysNodup at hn
      simp only [keysOf_cons, List.nodup_cons] at hn
      simp only [eraseKey] at h
      by_cases he : k' = k
      · subst he
        rw [if_pos rfl] at h
        refine ⟨List.mem_cons.mpr (Or.inr h), ?_⟩
        intro hjk; subst hjk
        exact hn.1 h
      · rw [if_neg he] at h
        rcases List.mem_cons.mp h with h | h
        · subst h
          exact ⟨List.mem_cons.mpr (Or.inl rfl), fun hjk => he hjk⟩
        · rcases ih hn.2 h with ⟨h1, h2⟩
          exact ⟨List.mem_cons.mpr (Or.inr h1), h2⟩

theorem foldl_eraseKey_all {α : Type} :
    ∀ (ks : List String) (t : List (String × α)), KeysNodup t →
      (∀ j, j ∈ keysOf t → j ∈ ks) →
      ks.foldl (fun acc k => eraseKey acc k) t = []
  | [], t, _, hsub => by
      cases t with
      | nil => rfl
      | cons p r => exact absurd (hsub p.1 (by simp [keysOf])) (by simp)
  | k :: ks, t, hn, hsub => by
      simp only [List.foldl_cons]
      refine foldl_eraseKey_all ks (eraseKey t k) (keysNodup_eraseKey t k hn) ?_
      intro j hj
      rcases mem_keysOf_eraseKey t k j hn hj with ⟨h1, h2⟩
      rcases List.mem_cons.mp (hsub j h1) with h | h
      · exact absurd h h2
      · exact h

theorem foldl_remove_entry_split :
    ∀ (ks : List String) (cm : CacheManager),
      ks.foldl (fun acc k => CacheManager.remove_entry acc k) cm =
        ⟨ks.foldl (fun acc k => eraseKey acc k) cm.render_cache,
         ks.foldl (fun acc k => eraseKey acc k) cm.timestamps⟩
  | [], cm => rfl
  | k :: ks, cm => by
      simp only [List.foldl_cons]
      exact foldl_remove_entry_split ks (cm.remove_entry k)

/-- C9: `invalidate(component_name)` with any non-None component name removes
every entry of the cache (the code collects *all* keys of `_render_cache`),
so on every well-formed cache state — distinct keys per dict, and every
timestamp key present in the render cache, as `set_cached`/`get_cached`
maintain — its effect equals that of the full clear `invalidate(None)`. -/
theorem invalidate_named_equals_full_clear (cm : CacheManager) (name : String)
    (h1 : KeysNodup cm.render_cache) (h2 : KeysNodup cm.timestamps)
    (hsub : ∀ k, k ∈ keysOf cm.timestamps → k ∈ keysOf cm.render_cache) :
    cm.invalidate (some name) = cm.invalidate none := by
  unfold CacheManager.invalidate
  rw [foldl_remove_entry_split]
  rw [foldl_eraseKey_all (keysOf cm.render_cache) cm.render_cache h1 (fun j h => h)]
  rw [foldl_eraseKey_all (keysOf cm.render_cache) cm.timestamps h2 hsub]

/-- A concrete cache state holding entries for two different components. -/
def cm0 : CacheManager :=
  ⟨[("key_comp1", "<div>one</div>"), ("key_comp2", "<div>two</div>")],
   [("key_comp1", 5), ("key_comp2", 6)]⟩

/-- Witness for C9 on a concrete two-component cache. -/
theorem invalidate_named_equals_full_clear_witness :
    cm0.invalidate (some "comp1") = cm0.invalidate none :=
  invalidate_named_equals_full_clear cm0 "comp1" (by decide) (by decide) (by decide)

/-! ### `CacheManager.cache_key` and `json.dumps(props, sort_keys=True)`

`cache_key` serializes the props dict with `json.dumps(props, sort_keys=True)`,
concatenates it with the component name and the three content hashes, and
returns the SHA-256 hex digest of that string.  `hashlib.sha256(...).hexdigest()`
is a fixed pure function of the input string, so it is embedded as an
arbitrary function parameter `hash : String → String`; every theorem below is
proved for all such functions, hence in particular for SHA-256.

`json.dumps(v, sort_keys=True)` sorts the keys of every (nested) object and
renders with the default separators `", "` and `": "`.  It is embedded as
plain rendering (`dumpsValue`) after recursive key-sorting (`Value.canon`). -/

/-- Insert an entry into a key-sorted entry list (insertion sort step). -/
def insertField (p : String × Value) : List (String × Value) → List (String × Value)
  | [] => [p]
  | q :: t => if p.1 ≤ q.1 then p :: q :: t else q :: insertField p t

/-- Sort a dict's entries by key (what `sort_keys=True` does at one level). -/
def sortFields : List (String × Value) → List (String × Value)
  | [] => []
  | p :: t => insertField p (sortFields t)

mutual

/-- Recursively key-sort every object inside a value. -/
def Value.canon : Value → Value
  | .null => .null
  | .bool b => .bool b
  | .num n => .num n
  | .str s => .str s
  | .arr l => .arr (Value.canonList l)
  | .obj l => .obj (sortFields (Value.canonFields l))

/-- `Value.canon` on each element of a list. -/
def Value.canonList : List Value → List Value
  | [] => []
  | x :: xs => Value.canon x :: Value.canonList xs

/-- `Value.canon` on each value of an entry list. -/
def Value.canonFields : List (String × Value) → List (String × Value)
  | [] => []
  | (k, v) :: xs => (k, Value.canon v) :: Value.canonFields xs

end

/-- JSON string escaping (`"` and `\` get a backslash). -/
def jsonEscapeChar (c : Char) : String :=
  if c = '"' then "\\\"" else if c = '\\' then "\\\\" else String.singleton c

/-- JSON rendering of a string literal. -/
def jsonQuote (s : String) : String :=
  "\"" ++ String.join (s.toList.map jsonEscapeChar) ++ "\""

mutual

/-- Plain JSON rendering with Python's default separators `", "`/`": "`
(no key sorting here; `json_dumps_sorted` sorts first via `Value.canon`). -/
def dumpsValue : Value → String
  | .null => "null"
  | .bool true => "true"
  | .bool false => "false"
  | .num n => toString n
  | .str s => jsonQuote s
  | .arr l => "[" ++ dumpsList l ++ "]"
  | .obj l => "\x7b" ++ dumpsFields l ++ "\x7d"

/-- Comma-separated rendering of array elements. -/
def dumpsList : List Value → String
  | [] => ""
  | [x] => dumpsValue x
  | x :: xs => dumpsValue x ++ ", " ++ dumpsList xs

/-- Comma-separated rendering of object entries. -/
def dumpsFields : List (String × Value) → String
  | [] => ""
  | [(k, v)] => jsonQuote k ++ ": " ++ dumpsValue v
  | (k, v) :: xs => jsonQuote k ++ ": " ++ dumpsValue v ++ ", " ++ dumpsFields xs

end

/-- `json.dumps(v, sort_keys=True)`: render after recursively sorting keys. -/
def json_dumps_sorted (v : Value) : String := dumpsValue (Value.canon v)

/-- `CacheManager.cache_key`: SHA-256 (the `hash` parameter) of
`f"{component_name}:{props_str}:{template_hash}:{style_hash}:{script_hash}"`
where `props_str = json.dumps(props, sort_keys=True)`. -/
def CacheManager.cache_key (hash : String → String) (component_name : String)
    (props : List (String × Value))
    (template_hash style_hash script_hash : String) : String :=
  hash (component_name ++ ":" ++ json_dumps_sorted (.obj props) ++ ":" ++
    template_hash ++ ":" ++ style_hash ++ ":" ++ script_hash)

/-- Key-order-independent equality of embedded values: the equality Python's
`==` implements on JSON-like data.  Scalars compare by value, lists pointwise,
and dicts with (necessarily) distinct keys compare by key set and per-key
recursive equality, irrespective of entry order. -/
inductive VEq : Value → Value → Prop where
  | null : VEq .null .null
  | bool (b : Bool) : VEq (.bool b) (.bool b)
  | num (n : Int) : VEq (.num n) (.num n)
  | str (s : String) : VEq (.str s) (.str s)
  | arr {xs ys : List Value} (hlen : xs.length = ys.length)
      (hval : ∀ (i : Nat) (h1 : i < xs.length) (h2 : i < ys.length),
        VEq (xs.get ⟨i, h1⟩) (ys.get ⟨i, h2⟩)) :
      VEq (.arr xs) (.arr ys)
  | obj {xs ys : List (String × Value)} (hx : KeysNodup xs) (hy : KeysNodup ys)
      (hdom : ∀ k, k ∈ keysOf xs ↔ k ∈ keysOf ys)
      (hval : ∀ k v1 v2, lookupKey k xs = some v1 → lookupKey k ys = some v2 →
        VEq v1 v2) :
      VEq (.obj xs) (.obj ys)

theorem canonList_eq_map (l : List Value) : Value.canonList l = l.map Value.canon := by
  induction l with
  | nil => rfl
  | cons x xs ih => simp [Value.canonList, ih]

theorem keysOf_canonFields (xs : List (String × Value)) :
    keysOf (Value.canonFields xs) = keysOf xs := by
  induction xs with
  | nil => rfl
  | cons p t ih =>
    cases p with
    | mk k v => simp [Value.canonFields, ih]

theorem lookupKey_canonFields (k : String) (xs : List (String × Value)) :
    lookupKey k (Value.canonFields xs) = (lookupKey k xs).map Value.canon := by
  induction xs with
  | nil => rfl
  | cons p t ih =>
    cases p with
    | mk k' v =>
      simp only [Value.canonFields, lookupKey]
      by_cases he : k' = k
      · rw [if_pos he, if_pos he]; rfl
      · rw [if_neg he, if_neg he]; exact ih

theorem perm_insertField (p : String × Value) (t : List (String × Value)) :
    List.Perm (insertField p t) (p :: t) := by
  induction t with
  | nil => exact List.Perm.refl _
  | cons q r ih =>
    simp only [insertField]
    by_cases h : p.1 ≤ q.1
    · rw [if_pos h]
    · rw [if_neg h]
      exact (ih.cons q).trans (List.Perm.swap p q r)

theorem sorted_insertField (p : String × Value) (t : List (String × Value))
    (h : List.Sorted (fun a b : String × Value => a.1 ≤ b.1) t) :
    List.Sorted (fun a b : String × Value => a.1 ≤ b.1) (insertField p t) := by
  induction t with
  | nil => simp [insertField]
  | cons q r ih =>
    rcases List.sorted_cons.mp h with ⟨hq, hr⟩
    simp only [insertField]
    by_cases hle : p.1 ≤ q.1
    · rw [if_pos hle]
      refine List.sorted_cons.mpr ⟨?_, h⟩
      intro b hb
      rcases List.mem_cons.mp hb with hb | hb
      · subst hb; exact hle
      · exact le_trans hle (hq b hb)
    · rw [if_neg hle]
      refine List.sorted_cons.mpr ⟨?_, ih hr⟩
      intro b hb
      have hb' := (perm_insertField p r).mem_iff.mp hb
      rcases List.mem_cons.mp hb' with hb' | hb'
      · subst hb'; exact le_of_not_le hle
      · exact hq b hb'

theorem sorted_sortFields (l : List (String × Value)) :
    List.Sorted (fun a b : String × Value => a.1 ≤ b.1) (sortFields l) := by
  induction l with
  | nil => simp [sortFields]
  | cons p t ih => exact sorted_insertField p (sortFields t) ih

theorem perm_sortFields (l : List (String × Value)) : List.Perm (sortFields l) l := by
  induction l with
  | nil => exact List.Perm.refl _
  | cons p t ih => exact (perm_insertField p (sortFields t)).trans (ih.cons p)

theorem sorted_strict_of_sorted_le (l : List (String × Value))
    (hs : List.Sorted (fun a b : String × Value => a.1 ≤ b.1) l)
    (hn : KeysNodup l) :
    List.Sorted (fun a b : String × Value => a.1 < b.1) l := by
  have hne : List.Pairwise (fun a b : String × Value => a.1 ≠ b.1) l :=
    (List.pairwise_map).mp hn
  exact (hs.and hne).imp (fun h => lt_of_le_of_ne h.1 h.2)

theorem canon_eq_of_veq {a b : Value} (h : VEq a b) : Value.canon a = Value.canon b := by
  induction h with
  | null => rfl
  | bool b => rfl
  | num n => rfl
  | str s => rfl
  | arr hlen hval ih =>
    simp only [Value.canon, canonList_eq_map]
    congr 1
    apply List.ext_get (by simp [hlen])
    intro n h1 h2
    simp only [List.get_eq_getElem, List.getElem_map]
    exact ih n (by simpa using h1) (by simpa using h2)
  | obj hx hy hdom hval ih =>
    rename_i xs ys
    simp only [Value.canon]
    congr 1
    have hknx : keysOf (Value.canonFields xs) = keysOf xs := keysOf_canonFields xs
    have hkny : keysOf (Value.canonFields ys) = keysOf ys := keysOf_canonFields ys
    have hx' : KeysNodup (Value.canonFields xs) := by rw [KeysNodup, hknx]; exact hx
    have hy' : KeysNodup (Value.canonFields ys) := by rw [KeysNodup, hkny]; exact hy
    have hmem : ∀ q : String × Value, q ∈ Value.canonFields xs ↔ q ∈ Value.canonFields ys := by
      rintro ⟨k, w⟩
      constructor
      · intro hq
        have hl := lookupKey_of_mem_nodup k (Value.canonFields xs) w hx' hq
        rw [lookupKey_canonFields] at hl
        cases hx0 : lookupKey k xs with
        | none => rw [hx0] at hl; cases hl
        | some v1 =>
          rw [hx0] at hl
          injection hl with hl
          have hky : k ∈ keysOf ys := (hdom k).mp (mem_keysOf_of_lookupKey k xs v1 hx0)
          obtain ⟨v2, hy0⟩ :=
            Option.isSome_iff_exists.mp ((lookupKey_isSome_iff_mem k ys).mpr hky)
          have hc : Value.canon v1 = Value.canon v2 := ih k v1 v2 hx0 hy0
          have hly : lookupKey k (Value.canonFields ys) = some (Value.canon v2) := by
            rw [lookupKey_canonFields, hy0]; rfl
          have : w = Value.canon v2 := by rw [← hl, hc]
          rw [this]
          exact mem_of_lookupKey k (Value.canonFields ys) (Value.canon v2) hly
      · intro hq
        have hl := lookupKey_of_mem_nodup k (Value.canonFields ys) w hy' hq
        rw [lookupKey_canonFields] at hl
        cases hy0 : lookupKey k ys with
        | none => rw [hy0] at hl; cases hl
        | some v2 =>
          rw [hy0] at hl
          injection hl with hl
          have hkx : k ∈ keysOf xs := (hdom k).mpr (mem_keysOf_of_lookupKey k ys v2 hy0)
          obtain ⟨v1, hx0⟩ :=
            Option.isSome_iff_exists.mp ((lookupKey_isSome_iff_mem k xs).mpr hkx)
          have hc : Value.canon v1 = Value.canon v2 := ih k v1 v2 hx0 hy0
          have hlx : lookupKey k (Value.canonFields xs) = some (Value.canon v1) := by
            rw [lookupKey_canonFields, hx0]; rfl
          have : w = Value.canon v1 := by rw [← hl, ← hc]
          rw [this]
          exact mem_of_lookupKey k (Value.canonFields xs) (Value.canon v1) hlx
    have hnx : (Value.canonFields xs).Nodup := List.Nodup.of_map Prod.fst hx'
    have hny : (Value.canonFields ys).Nodup := List.Nodup.of_map Prod.fst hy'
    have hperm : List.Perm (Value.canonFields xs) (Value.canonFields ys) :=
      List.perm_of_nodup_nodup_toFinset_eq hnx hny
        (Finset.ext (fun q => by simp only [List.mem_toFinset]; exact hmem q))
    have hperm2 : List.Perm (sortFields (Value.canonFields xs))
        (sortFields (Value.canonFields ys)) :=
      ((perm_sortFields _).trans hperm).trans (perm_sortFields _).symm
    have hks1 : KeysNodup (sortFields (Value.canonFields xs)) :=
      (((perm_sortFields (Value.canonFields xs)).map Prod.fst).nodup_iff).mpr hx'
    have hks2 : KeysNodup (sortFields (Value.canonFields ys)) :=
      (((perm_sortFields (Value.canonFields ys)).map Prod.fst).nodup_iff).mpr hy'
    haveI : IsAntisymm (String × Value) (fun a b : String × Value => a.1 < b.1) :=
      ⟨fun a b h1 h2 => absurd h2 (lt_asymm h1)⟩
    exact List.eq_of_perm_of_sorted hperm2
      (sorted_strict_of_sorted_le _ (sorted_sortFields _) hks1)
      (sorted_strict_of_sorted_le _ (sorted_sortFields _) hks2)

/-- C7: `cache_key` is a pure function of its arguments (determinism), and is
stable under key-order-independent equality of the props mapping: since
`json.dumps(props, sort_keys=True)` canonicalizes key order at every nesting
level, any two props dicts that are equal as mappings (`VEq`) — identical key
sets with recursively equal values, in any insertion order — yield the
identical key string, for every hash function (hence for SHA-256) and
identical component name and content hashes. -/
theorem cache_key_stable_under_key_order (hash : String → String)
    (component_name : String) (p1 p2 : List (String × Value))
    (template_hash style_hash script_hash : String)
    (h : VEq (.obj p1) (.obj p2)) :
    CacheManager.cache_key hash component_name p1 template_hash style_hash script_hash =
      CacheManager.cache_key hash component_name p2 template_hash style_hash script_hash := by
  unfold CacheManager.cache_key json_dumps_sorted
  rw [canon_eq_of_veq h]

/-- The same two-entry props dict in two different insertion orders. -/
def props1 : List (String × Value) := [("b", .num 2), ("a", .num 1)]

/-- See `props1`. -/
def props2 : List (String × Value) := [("a", .num 1), ("b", .num 2)]

theorem props_veq : VEq (.obj props1) (.obj props2) := by
  refine VEq.obj (by decide) (by decide) ?_ ?_
  · intro k
    simp only [props1, props2, keysOf_cons, keysOf_nil, List.mem_cons,
      List.not_mem_nil, or_false]
    exact or_comm
  · intro k v1 v2 h1 h2
    by_cases hb : ("b" : String) = k
    · subst hb
      have e1 : lookupKey "b" props1 = some (Value.num 2) := rfl
      have e2 : lookupKey "b" props2 = some (Value.num 2) := rfl
      rw [e1] at h1
      rw [e2] at h2
      injection h1 with h1
      injection h2 with h2
      rw [← h1, ← h2]
      exact VEq.num 2
    · by_cases ha : ("a" : String) = k
      · subst ha
        have e1 : lookupKey "a" props1 = some (Value.num 1) := rfl
        have e2 : lookupKey "a" props2 = some (Value.num 1) := rfl
        rw [e1] at h1
        rw [e2] at h2
        injection h1 with h1
        injection h2 with h2
        rw [← h1, ← h2]
        exact VEq.num 1
      · have e1 : lookupKey k props1 = none := by
          simp only [props1, lookupKey]
          rw [if_neg hb, if_neg ha]
        rw [e1] at h1
        cases h1

/-- Witness for C7: the concrete reordered props dicts produce the same key. -/
theorem cache_key_stable_under_key_order_witness :
    CacheManager.cache_key (fun s => s) "comp" props1 "t" "s" "c"
      = CacheManager.cache_key (fun s => s) "comp" props2 "t" "s" "c" :=
  cache_key_stable_under_key_order (fun s => s) "comp" props1 props2 "t" "s" "c" props_veq

/-! ### The state-synchronization module

`bidirectional/sync.py` is referenced by the repository's own test suite
(`test_bidirectional_basic.py` imports `StateManager`, `StateDiff`,
`StateSnapshot`, `ConflictResolution` from it) but the file itself is not in
the source tree, so the module is modelled from the specification text
(spec sections 4.1–4.4).  A named state's value is a string-keyed dict of
JSON values. -/

/-- A named state's value: a Python dict of JSON values. -/
abbrev StateMap : Type := List (String × Value)

theorem lookupKey_setKey {α : Type} (l : List (String × α)) (k : String) (v : α)
    (j : String) :
    lookupKey j (setKey l k v) = if j = k then some v else lookupKey j l := by
  induction l with
  | nil =>
    by_cases h : j = k
    · subst h
      simp [setKey, lookupKey]
    · have h' : ¬ k = j := fun he => h he.symm
      simp [setKey, lookupKey, h, h']
  | cons p t ih =>
    cases p with
    | mk k' v' =>
      by_cases hk : k' = k
      · subst hk
        by_cases h : j = k'
        · subst h
          simp [setKey, lookupKey]
        · have h' : ¬ k' = j := fun he => h he.symm
          simp [setKey, lookupKey, h, h']
      · by_cases h : k' = j
        · subst h
          have h2 : ¬ k' = k := hk
          simp [setKey, lookupKey, hk, h2]
        · simp [setKey, lookupKey, hk, h, ih]

/-- `base.update(entries)` on a Python dict: assign every entry in order. -/
def dictUpdate {α : Type} (base : List (String × α)) (entries : List (String × α)) :
    List (String × α) :=
  entries.foldl (fun acc p => setKey acc p.1 p.2) base

theorem lookupKey_dictUpdate {α : Type} :
    ∀ (entries base : List (String × α)), KeysNodup entries → ∀ (k : String),
      lookupKey k (dictUpdate base entries) =
        match lookupKey k entries with
        | some v => some v
        | none => lookupKey k base
  | [], base, _, k => rfl
  | (k0, v0) :: t, base, hn, k => by
      unfold KeysNodup at hn
      simp only [keysOf_cons, List.nodup_cons] at hn
      simp only [dictUpdate, List.foldl_cons]
      have ih := lookupKey_dictUpdate t (setKey base k0 v0) hn.2 k
      simp only [dictUpdate] at ih
      rw [ih]
      simp only [lookupKey]
      by_cases hk : k0 = k
      · subst hk
        rw [if_pos rfl]
        rw [lookupKey_eq_none_of_not_mem k0 t hn.1]
        rw [lookupKey_setKey, if_pos rfl]
      · rw [if_neg hk]
        cases ht : lookupKey k t with
        | some v => rfl
        | none =>
          rw [lookupKey_setKey, if_neg (fun he => hk he.symm)]

theorem lookupKey_eraseKey {α : Type} (l : List (String × α)) (k j : String)
    (hl : KeysNodup l) :
    lookupKey j (eraseKey l k) = if j = k then none else lookupKey j l := by
  induction l with
  | nil => simp [eraseKey]
  | cons p t ih =>
    cases p with
    | mk k' v' =>
      unfold KeysNodup at hl
      simp only [keysOf_cons, List.nodup_cons] at hl
      by_cases hk : k' = k
      · subst hk
        by_cases h : j = k'
        · subst h
          simp [eraseKey, lookupKey_eq_none_of_not_mem j t hl.1]
        · have h' : ¬ k' = j := fun he => h he.symm
          simp [eraseKey, lookupKey, h, h']
      · by_cases h : k' = j
        · subst h
          have h2 : ¬ k' = k := hk
          simp [eraseKey, lookupKey, hk, h2]
        · have ih' := ih hl.2
          simp [eraseKey, lookupKey, hk, h, ih']

theorem lookupKey_foldl_eraseKey {α : Type} :
    ∀ (ks : List String) (base : List (String × α)), KeysNodup base → ∀ (j : String),
      lookupKey j (ks.foldl (fun acc k => eraseKey acc k) base) =
        if j ∈ ks then none else lookupKey j base
  | [], base, _, j => by simp
  | k :: ks, base, hb, j => by
      simp only [List.foldl_cons]
      rw [lookupKey_foldl_eraseKey ks (eraseKey base k) (keysNodup_eraseKey base k hb) j]
      rw [lookupKey_eraseKey base k j hb]
      by_cases hks : j ∈ ks
      · rw [if_pos hks, if_pos (List.mem_cons.mpr (Or.inr hks))]
      · rw [if_neg hks]
        by_cases hjk : j = k
        · rw [if_pos hjk, if_pos (List.mem_cons.mpr (Or.inl hjk))]
        · rw [if_neg hjk, if_neg (by simp [hjk, hks])]

theorem lookupKey_filter_keyPred {α : Type} (q : String → Bool) :
    ∀ (l : List (String × α)), KeysNodup l → ∀ (k : String),
      lookupKey k (l.filter (fun p => q p.1)) = if q k then lookupKey k l else none
  | [], _, k => by simp
  | (k', v') :: t, hl, k => by
      unfold KeysNodup at hl
      simp only [keysOf_cons, List.nodup_cons] at hl
      have ih := lookupKey_filter_keyPred q t hl.2 k
      by_cases hk : k' = k
      · subst hk
        by_cases hq : q k'
        · simp [List.filter_cons, hq, lookupKey]
        · have hnone : lookupKey k' (t.filter (fun p => q p.1)) = none := by
            apply lookupKey_eq_none_of_not_mem
            intro hmem
            exact hl.1 (((List.filter_sublist t).map Prod.fst).subset hmem)
          simp [List.filter_cons, hq, hnone]
      · by_cases hq : q k'
        · simp [List.filter_cons, hq, lookupKey, hk, ih]
        · simp [List.filter_cons, hq, lookupKey, hk, ih]

/-- Modelled from the spec (4.4): `diff`'s `added` component — "keys in new
not in old" with their new values. -/
def diffAdded (old new : StateMap) : StateMap :=
  new.filter (fun p => (lookupKey p.1 old).isNone)

/-- Modelled from the spec (4.4): `diff`'s `modified` component — "keys in
both with different values — equality by value, not identity", each mapped to
its `{old, new}` pair. -/
def diffModified (old new : StateMap) : List (String × (Value × Value)) :=
  new.filterMap (fun p =>
    match lookupKey p.1 old with
    | some ov => if ov = p.2 then none else some (p.1, (ov, p.2))
    | none => none)

/-- Modelled from the spec (4.4): `diff`'s `removed` component — "keys in old
not in new" with their old values. -/
def diffRemoved (old new : StateMap) : StateMap :=
  old.filter (fun p => (lookupKey p.1 new).isNone)

/-- Modelled from the spec (4.4): the result of `StateDiff.diff`. -/
structure Diff where
  added : StateMap
  modified : List (String × (Value × Value))
  removed : StateMap

/-- Modelled from the spec (4.4): `StateDiff.diff(old, new)`. -/
def StateDiff.diff (old new : StateMap) : Diff :=
  ⟨diffAdded old new, diffModified old new, diffRemoved old new⟩

/-- Modelled from the spec (4.4): `has_changes(diff)` = any of the three
components non-empty. -/
def StateDiff.has_changes (d : Diff) : Bool :=
  !(d.added.isEmpty && d.modified.isEmpty && d.removed.isEmpty)

/-- Modelled from the spec (4.4): `apply_diff(base, diff)` — copy of `base`,
delete the `removed` keys, set each `modified` key to its `new` value, then
`result.update(added)`. -/
def StateDiff.apply_diff (base : StateMap) (d : Diff) : StateMap :=
  let afterRemove := (keysOf d.removed).foldl (fun acc k => eraseKey acc k) base
  let afterMod := d.modified.foldl (fun acc p => setKey acc p.1 p.2.2) afterRemove
  dictUpdate afterMod d.added

theorem lookupKey_foldl_setKey_snd :
    ∀ (ms : List (String × (Value × Value))) (base : StateMap), KeysNodup ms →
      ∀ (k : String),
      lookupKey k (ms.foldl (fun acc p => setKey acc p.1 p.2.2) base) =
        match lookupKey k ms with
        | some pr => some pr.2
        | none => lookupKey k base
  | [], base, _, k => rfl
  | (k0, pr0) :: t, base, hn, k => by
      unfold KeysNodup at hn
      simp only [keysOf_cons, List.nodup_cons] at hn
      simp only [List.foldl_cons]
      rw [lookupKey_foldl_setKey_snd t (setKey base k0 pr0.2) hn.2 k]
      simp only [lookupKey]
      by_cases hk : k0 = k
      · subst hk
        rw [if_pos rfl]
        rw [lookupKey_eq_none_of_not_mem k0 t hn.1]
        rw [lookupKey_setKey, if_pos rfl]
      · rw [if_neg hk]
        cases ht : lookupKey k t with
        | some v => rfl
        | none =>
          rw [lookupKey_setKey, if_neg (fun he => hk he.symm)]


theorem diffModified_cons (old : StateMap) (k0 : String) (nv0 : Value)
    (t : StateMap) :
    diffModified old ((k0, nv0) :: t) =
      match lookupKey k0 old with
      | some ov =>
        if ov = nv0 then diffModified old t else (k0, (ov, nv0)) :: diffModified old t
      | none => diffModified old t := by
  simp only [diffModified, List.filterMap_cons]
  cases lookupKey k0 old with
  | none => rfl
  | some ov =>
    by_cases he : ov = nv0
    · simp [he]
    · simp [he]

theorem keysOf_diffModified_sublist (old : StateMap) :
    ∀ (new : StateMap), List.Sublist (keysOf (diffModified old new)) (keysOf new)
  | [] => by simp [diffModified]
  | (k0, nv0) :: t => by
      have ih := keysOf_diffModified_sublist old t
      rw [diffModified_cons]
      cases h0 : lookupKey k0 old with
      | none =>
        simp only [keysOf_cons]
        exact ih.cons k0
      | some ov =>
        dsimp only
        by_cases he : ov = nv0
        · rw [if_pos he]
          simp only [keysOf_cons]
          exact ih.cons k0
        · rw [if_neg he]
          simp only [keysOf_cons]
          exact ih.cons₂ k0

theorem lookupKey_diffModified (old : StateMap) :
    ∀ (new : StateMap), KeysNodup new → ∀ (k : String),
      lookupKey k (diffModified old new) =
        match lookupKey k new with
        | some nv =>
          (match lookupKey k old with
           | some ov => if ov = nv then none else some (ov, nv)
           | none => none)
        | none => none
  | [], _, k => by simp [diffModified]
  | (k0, nv0) :: t, hn, k => by
      unfold KeysNodup at hn
      simp only [keysOf_cons, List.nodup_cons] at hn
      have ih := lookupKey_diffModified old t hn.2 k
      have hnone : k0 ∉ keysOf (diffModified old t) :=
        fun hm => hn.1 ((keysOf_diffModified_sublist old t).subset hm)
      rw [diffModified_cons]
      by_cases hk : k0 = k
      · subst hk
        cases h0 : lookupKey k0 old with
        | none =>
          simp [lookupKey, lookupKey_eq_none_of_not_mem k0 _ hnone]
        | some ov =>
          by_cases he : ov = nv0
          · simp [he, lookupKey, lookupKey_eq_none_of_not_mem k0 _ hnone]
          · simp [he, lookupKey]
      · cases h0 : lookupKey k0 old with
        | none => simp [lookupKey, hk, ih]
        | some ov =>
          by_cases he : ov = nv0
          · simp [he, lookupKey, hk, ih]
          · simp [he, lookupKey, hk, ih]

theorem lookupKey_diffAdded (old new : StateMap) (hn : KeysNodup new) (k : String) :
    lookupKey k (diffAdded old new) =
      if (lookupKey k old).isNone then lookupKey k new else none :=
  lookupKey_filter_keyPred (fun j => (lookupKey j old).isNone) new hn k

theorem lookupKey_diffRemoved (old new : StateMap) (ho : KeysNodup old) (k : String) :
    lookupKey k (diffRemoved old new) =
      if (lookupKey k new).isNone then lookupKey k old else none :=
  lookupKey_filter_keyPred (fun j => (lookupKey j new).isNone) old ho k

theorem keysNodup_diffAdded (old new : StateMap) (hn : KeysNodup new) :
    KeysNodup (diffAdded old new) :=
  ((List.filter_sublist new).map Prod.fst).nodup hn

theorem keysNodup_diffModified (old new : StateMap) (hn : KeysNodup new) :
    KeysNodup (diffModified old new) :=
  (keysOf_diffModified_sublist old new).nodup hn

/-- C1 (spec-modelled, sync.py absent from the source tree): the round-trip
law of spec 4.4 — for all dicts `old`, `new` of JSON values,
`apply_diff(old, diff(old, new))` equals `new` as a mapping (pointwise lookup
equality, which is Python dict `==`). -/
theorem apply_diff_diff_roundtrip (old new : StateMap)
    (ho : KeysNodup old) (hn : KeysNodup new) (k : String) :
    lookupKey k (StateDiff.apply_diff old (StateDiff.diff old new)) = lookupKey k new := by
  unfold StateDiff.apply_diff StateDiff.diff
  rw [lookupKey_dictUpdate (diffAdded old new) _ (keysNodup_diffAdded old new hn) k]
  rw [lookupKey_foldl_setKey_snd (diffModified old new) _
    (keysNodup_diffModified old new hn) k]
  rw [lookupKey_foldl_eraseKey (keysOf (diffRemoved old new)) old ho k]
  rw [lookupKey_diffAdded old new hn k, lookupKey_diffModified old new hn k]
  cases hn0 : lookupKey k new with
  | some nv =>
    cases ho0 : lookupKey k old with
    | none => simp [ho0, hn0]
    | some ov =>
      by_cases he : ov = nv
      · have hnotmem : k ∉ keysOf (diffRemoved old new) := by
          intro hm
          have hs := (lookupKey_isSome_iff_mem k (diffRemoved old new)).mpr hm
          rw [lookupKey_diffRemoved old new ho k, hn0] at hs
          simp at hs
        simp [ho0, hn0, he, hnotmem]
      · simp [ho0, hn0, he]
  | none =>
    cases ho0 : lookupKey k old with
    | none =>
      have hnotmem : k ∉ keysOf (diffRemoved old new) := by
        intro hm
        have hs := (lookupKey_isSome_iff_mem k (diffRemoved old new)).mpr hm
        rw [lookupKey_diffRemoved old new ho k, hn0, ho0] at hs
        simp at hs
      simp [ho0, hn0, hnotmem]
    | some ov =>
      have hmem : k ∈ keysOf (diffRemoved old new) := by
        apply (lookupKey_isSome_iff_mem k (diffRemoved old new)).mp
        rw [lookupKey_diffRemoved old new ho k, hn0, ho0]
        simp
      simp [ho0, hn0, hmem]

/-- The dict pair of the repository's own diff test
(`test_bidirectional_basic.py`, Test 9). -/
def old0 : StateMap := [("a", .num 1), ("b", .num 2), ("c", .num 3)]

/-- See `old0`. -/
def new0 : StateMap := [("a", .num 1), ("b", .num 20), ("d", .num 4)]

/-- Witness for C1 on the repository's own test dicts, at every key of
either side and at an absent key. -/
theorem apply_diff_diff_roundtrip_witness :
    lookupKey "a" (StateDiff.apply_diff old0 (StateDiff.diff old0 new0)) = lookupKey "a" new0
    ∧ lookupKey "b" (StateDiff.apply_diff old0 (StateDiff.diff old0 new0)) = lookupKey "b" new0
    ∧ lookupKey "c" (StateDiff.apply_diff old0 (StateDiff.diff old0 new0)) = lookupKey "c" new0
    ∧ lookupKey "d" (StateDiff.apply_diff old0 (StateDiff.diff old0 new0)) = lookupKey "d" new0
    ∧ lookupKey "e" (StateDiff.apply_diff old0 (StateDiff.diff old0 new0)) = lookupKey "e" new0 :=
  ⟨apply_diff_diff_roundtrip old0 new0 (by decide) (by decide) "a",
   apply_diff_diff_roundtrip old0 new0 (by decide) (by decide) "b",
   apply_diff_diff_roundtrip old0 new0 (by decide) (by decide) "c",
   apply_diff_diff_roundtrip old0 new0 (by decide) (by decide) "d",
   apply_diff_diff_roundtrip old0 new0 (by decide) (by decide) "e"⟩

/-- Modelled from the spec (4.2): the conflict-resolution strategy enum; the
CUSTOM variant carries its caller-supplied resolver function. -/
inductive ConflictResolution where
  | client_wins : ConflictResolution
  | server_wins : ConflictResolution
  | latest_wins : ConflictResolution
  | merge : ConflictResolution
  | custom (f : StateMap → StateMap → StateMap) : ConflictResolution

/-- Modelled from the spec (4.2): the MERGE resolver — "shallow union starting
from client state then overwritten key-by-key by server's current state",
i.e. Python `merged = dict(client_state); merged.update(server_state)`. -/
def mergeStates (client server : StateMap) : StateMap := dictUpdate client server

/-- C5 (spec-modelled, sync.py absent from the source tree): under MERGE, the
resolved state is the client state overwritten key-by-key by the server
state — on every key present in the server state the server's value wins;
keys only in the client state survive with the client's value; keys in
neither are absent. -/
theorem merge_resolved_server_wins_on_overlap (client server : StateMap)
    (hs : KeysNodup server) :
    (∀ k sv, lookupKey k server = some sv →
        lookupKey k (mergeStates client server) = some sv)
    ∧ (∀ k cv, lookupKey k server = none → lookupKey k client = some cv →
        lookupKey k (mergeStates client server) = some cv)
    ∧ (∀ k, lookupKey k server = none → lookupKey k client = none →
        lookupKey k (mergeStates client server) = none) := by
  refine ⟨fun k sv hsv => ?_, fun k cv hs0 hc => ?_, fun k hs0 hc => ?_⟩ <;>
    unfold mergeStates <;>
    rw [lookupKey_dictUpdate server client hs k] <;>
    simp [*]

/-- The spec's MERGE example (client based on v1), plus a client-only and a
server-only key. -/
def client0 : StateMap := [("x", .num 10), ("y", .num 2), ("z", .num 3), ("c", .num 7)]

/-- See `client0`: the server's v2 state. -/
def server0 : StateMap := [("x", .num 1), ("y", .num 20), ("z", .num 3), ("s", .num 9)]

/-- Witness for C5 on the spec's MERGE example: server wins on `x`,`y`,`z`,`s`;
the client-only key `c` survives; an absent key stays absent. -/
theorem merge_resolved_server_wins_on_overlap_witness :
    lookupKey "x" (mergeStates client0 server0) = some (.num 1)
    ∧ lookupKey "y" (mergeStates client0 server0) = some (.num 20)
    ∧ lookupKey "z" (mergeStates client0 server0) = some (.num 3)
    ∧ lookupKey "c" (mergeStates client0 server0) = some (.num 7)
    ∧ lookupKey "s" (mergeStates client0 server0) = some (.num 9)
    ∧ lookupKey "w" (mergeStates client0 server0) = none :=
  ⟨(merge_resolved_server_wins_on_overlap client0 server0 (by decide)).1 "x" (.num 1) rfl,
   (merge_resolved_server_wins_on_overlap client0 server0 (by decide)).1 "y" (.num 20) rfl,
   (merge_resolved_server_wins_on_overlap client0 server0 (by decide)).1 "z" (.num 3) rfl,
   (merge_resolved_server_wins_on_overlap client0 server0 (by decide)).2.1 "c" (.num 7) rfl rfl,
   (merge_resolved_server_wins_on_overlap client0 server0 (by decide)).1 "s" (.num 9) rfl,
   (merge_resolved_server_wins_on_overlap client0 server0 (by decide)).2.2 "w" rfl rfl⟩

/-- Modelled from the spec (3, 4.1): a recorded snapshot of a named state. -/
structure StateSnapshot where
  state : StateMap
  version : Nat
  source : String

/-- Modelled from the spec (3): a named state entry — current resolved value
plus its ordered history, oldest first. -/
structure StateEntry where
  current : StateMap
  history : List StateSnapshot

/-- The entry of a never-written name. -/
def emptyEntry : StateEntry := ⟨[], []⟩

/-- Modelled from the spec (4.1): the manager holds `max_history`, the
configured conflict-resolution strategy, and the per-name entries. -/
structure StateManager where
  max_history : Nat
  conflict_resolution : ConflictResolution
  states : String → StateEntry

/-- A fresh manager: no name has been written. -/
def StateManager.init (mh : Nat) (cr : ConflictResolution) : StateManager :=
  ⟨mh, cr, fun _ => emptyEntry⟩

/-- The entry's current server version: the last snapshot's version, `0` if
no write has occurred ("version = previous max + 1, or 1 if none exists"). -/
def entryVersion (e : StateEntry) : Nat :=
  match e.history.getLast? with
  | some s => s.version
  | none => 0

/-- The versions recorded in an entry's history, oldest first. -/
def versionsOf (e : StateEntry) : List Nat := e.history.map (fun s => s.version)

/-- `[s, s+1, ..., s+n-1]`: the shape of a consecutive version run. -/
def versionsFrom (s : Nat) : Nat → List Nat
  | 0 => []
  | n + 1 => s :: versionsFrom (s + 1) n

/-- Modelled from the spec (4.1): append a snapshot at version
`previous max + 1`, then drop the oldest entry if the bound is exceeded
(FIFO eviction, never renumbering survivors). -/
def appendSnapshot (mh : Nat) (e : StateEntry) (newState : StateMap)
    (source : String) : StateEntry :=
  ⟨newState,
    if mh < (e.history ++ [StateSnapshot.mk newState (entryVersion e + 1) source]).length then
      (e.history ++ [StateSnapshot.mk newState (entryVersion e + 1) source]).drop 1
    else e.history ++ [StateSnapshot.mk newState (entryVersion e + 1) source]⟩

/-- Modelled from the spec (4.1): `set_state` — replace the current value
unconditionally and always create a new history entry. -/
def StateManager.set_state (m : StateManager) (name : String) (value : StateMap)
    (source : String) : StateManager :=
  { m with states := fun n =>
      if n = name then appendSnapshot m.max_history (m.states name) value source
      else m.states n }

/-- Modelled from the spec (4.1): `update_state` — shallow-merge the update
into (a copy of) the current value when `merge`, else replace wholesale; a
missing name is treated as the empty mapping; always bumps and appends. -/
def StateManager.update_state (m : StateManager) (name : String)
    (partialState : StateMap) (merge : Bool) (source : String) : StateManager :=
  m.set_state name
    (if merge then dictUpdate (m.states name).current partialState else partialState)
    source

/-- Modelled from the spec (4.3): `sync_from_client` — adopt the client state
when versions agree; otherwise resolve per strategy, committing a new version
on CLIENT_WINS / LATEST_WINS / MERGE / CUSTOM and committing nothing (success
= false, conflict = server state) on SERVER_WINS.  Returns (new manager,
success, conflict payload). -/
def StateManager.sync_from_client (m : StateManager) (name : String)
    (client_state : StateMap) (client_version : Nat) :
    StateManager × Bool × Option StateMap :=
  if client_version = entryVersion (m.states name) then
    (m.set_state name client_state "external", true, none)
  else
    match m.conflict_resolution with
    | .server_wins => (m, false, some (m.states name).current)
    | .client_wins => (m.set_state name client_state "external", true, none)
    | .latest_wins => (m.set_state name client_state "external", true, none)
    | .merge =>
        (m.set_state name (mergeStates client_state (m.states name).current) "external",
         true, none)
    | .custom f =>
        (m.set_state name (f client_state (m.states name).current) "external",
         true, none)

/-- One call in a manager's lifetime, as quantified over by the invariant. -/
inductive SyncOp where
  | set (name : String) (value : StateMap) : SyncOp
  | update (name : String) (partialState : StateMap) (merge : Bool) : SyncOp
  | sync (name : String) (client_state : StateMap) (client_version : Nat) : SyncOp

/-- Apply one call to the manager (discarding `sync_from_client`'s returned
success flag and conflict payload). -/
def applyOp (m : StateManager) : SyncOp → StateManager
  | .set n v => m.set_state n v "internal"
  | .update n p mg => m.update_state n p mg "internal"
  | .sync n cs cv => (m.sync_from_client n cs cv).1

/-- Apply a sequence of calls in order. -/
def runOps (m : StateManager) (ops : List SyncOp) : StateManager :=
  ops.foldl applyOp m

/-- The entry of `name` after running `ops` against a fresh manager. -/
def entryAfter (mh : Nat) (cr : ConflictResolution) (ops : List SyncOp)
    (name : String) : StateEntry :=
  (runOps (StateManager.init mh cr) ops).states name

/-- The per-entry history invariant: versions form a consecutive run ending
at the current version, the history holds `min (version, max_history)`
snapshots, and the last snapshot carries the current value. -/
def EntryInv (mh : Nat) (e : StateEntry) : Prop :=
  versionsOf e = versionsFrom (entryVersion e + 1 - e.history.length) e.history.length
  ∧ e.history.length = min (entryVersion e) mh
  ∧ ∀ s, e.history.getLast? = some s → s.state = e.current

theorem versionsFrom_concat (s n : Nat) :
    versionsFrom s n ++ [s + n] = versionsFrom s (n + 1) := by
  induction n generalizing s with
  | zero => simp [versionsFrom]
  | succ n ih =>
    show (s :: versionsFrom (s + 1) n) ++ [s + (n + 1)] = s :: versionsFrom (s + 1) (n + 1)
    rw [List.cons_append]
    congr 1
    rw [show s + (n + 1) = (s + 1) + n by omega]
    exact ih (s + 1)

theorem appendSnapshot_history (mh : Nat) (e : StateEntry) (v : StateMap) (src : String) :
    (appendSnapshot mh e v src).history =
      if mh < e.history.length + 1 then
        (e.history ++ [StateSnapshot.mk v (entryVersion e + 1) src]).drop 1
      else e.history ++ [StateSnapshot.mk v (entryVersion e + 1) src] := by
  unfold appendSnapshot
  simp [List.length_append]


theorem entryVersion_concat (v : StateMap) (l : List StateSnapshot) (s : StateSnapshot) :
    entryVersion ⟨v, l ++ [s]⟩ = s.version := by
  unfold entryVersion
  rw [List.getLast?_concat]

theorem versionsFrom_concat_of_eq (s n m : Nat) (hm : m = s + n) :
    versionsFrom s n ++ [m] = versionsFrom s (n + 1) := by
  rw [hm]
  exact versionsFrom_concat s n

theorem entryVersion_appendSnapshot (mh : Nat) (e : StateEntry) (v : StateMap)
    (src : String) (hmh : 1 ≤ mh) :
    entryVersion (appendSnapshot mh e v src) = entryVersion e + 1 := by
  have h1 : appendSnapshot mh e v src = ⟨v, (appendSnapshot mh e v src).history⟩ := rfl
  rw [h1, appendSnapshot_history]
  by_cases hd : mh < e.history.length + 1
  · rw [if_pos hd]
    have hlpos : 1 ≤ e.history.length := by omega
    obtain ⟨x, t, hxt⟩ : ∃ x t, e.history = x :: t := by
      cases hhd : e.history with
      | nil => rw [hhd] at hlpos; simp at hlpos
      | cons a b => exact ⟨a, b, rfl⟩
    rw [hxt, List.cons_append, List.drop_succ_cons, List.drop_zero]
    exact entryVersion_concat v t _
  · rw [if_neg hd]
    exact entryVersion_concat v e.history _

theorem entryInv_appendSnapshot (mh : Nat) (e : StateEntry) (v : StateMap) (src : String)
    (hmh : 1 ≤ mh) (h : EntryInv mh e) : EntryInv mh (appendSnapshot mh e v src) := by
  obtain ⟨hver, hlen, hlast⟩ := h
  have hKnew := entryVersion_appendSnapshot mh e v src hmh
  have hhist := appendSnapshot_history mh e v src
  have hcur : (appendSnapshot mh e v src).current = v := rfl
  have hminK : e.history.length = min (entryVersion e) mh := hlen
  unfold versionsOf at hver
  by_cases hd : mh < e.history.length + 1
  · rw [if_pos hd] at hhist
    have hlpos : 1 ≤ e.history.length := by omega
    obtain ⟨x, t, hxt⟩ : ∃ x t, e.history = x :: t := by
      cases hhd : e.history with
      | nil => rw [hhd] at hlpos; simp at hlpos
      | cons a b => exact ⟨a, b, rfl⟩
    rw [hxt, List.cons_append, List.drop_succ_cons, List.drop_zero] at hhist
    have hlt : e.history.length = t.length + 1 := by rw [hxt]; simp
    have hver' : x.version :: t.map (fun s => s.version)
        = versionsFrom (entryVersion e + 1 - e.history.length) e.history.length := by
      rw [← List.map_cons, ← hxt]
      exact hver
    rw [hlt] at hver'
    have ht : t.map (fun s => s.version)
        = versionsFrom (entryVersion e + 1 - (t.length + 1) + 1) t.length := by
      rw [show versionsFrom (entryVersion e + 1 - (t.length + 1)) (t.length + 1)
          = (entryVersion e + 1 - (t.length + 1))
            :: versionsFrom (entryVersion e + 1 - (t.length + 1) + 1) t.length
          from rfl] at hver'
      injection hver' with h1 h2
    refine ⟨?_, ?_, ?_⟩
    · unfold versionsOf
      rw [hhist, hKnew]
      simp only [List.map_append, List.map_cons, List.map_nil, List.length_append,
        List.length_cons, List.length_nil]
      norm_num
      rw [ht]
      rw [show entryVersion e + 1 - (t.length + 1) + 1 = entryVersion e + 1 - t.length
        from by omega]
      rw [versionsFrom_concat_of_eq _ _ _ (by omega)]
      congr 1
      omega
    · rw [hhist, hKnew]
      simp only [List.length_append, List.length_cons, List.length_nil]
      omega
    · intro s hs
      rw [hhist, List.getLast?_concat] at hs
      injection hs with hs
      rw [← hs]
      exact hcur.symm
  · rw [if_neg hd] at hhist
    have hKlen : e.history.length ≤ entryVersion e := by omega
    refine ⟨?_, ?_, ?_⟩
    · unfold versionsOf
      rw [hhist, hKnew]
      simp only [List.map_append, List.map_cons, List.map_nil, List.length_append,
        List.length_cons, List.length_nil]
      norm_num
      rw [hver]
      rw [versionsFrom_concat_of_eq _ _ _ (by omega)]
      congr 1
      omega
    · rw [hhist, hKnew]
      simp only [List.length_append, List.length_cons, List.length_nil]
      omega
    · intro s hs
      rw [hhist, List.getLast?_concat] at hs
      injection hs with hs
      rw [← hs]
      exact hcur.symm

/-- The manager-wide invariant: every name's entry satisfies `EntryInv`. -/
def ManagerInv (m : StateManager) : Prop :=
  ∀ n, EntryInv m.max_history (m.states n)

theorem managerInv_init (mh : Nat) (cr : ConflictResolution) :
    ManagerInv (StateManager.init mh cr) := by
  intro n
  refine ⟨rfl, by simp [emptyEntry, entryVersion, StateManager.init], ?_⟩
  intro s hs
  cases hs

theorem maxHistory_set_state (m : StateManager) (name : String) (v : StateMap)
    (src : String) : (m.set_state name v src).max_history = m.max_history := rfl

theorem managerInv_set_state (m : StateManager) (name : String) (v : StateMap)
    (src : String) (hmh : 1 ≤ m.max_history) (h : ManagerInv m) :
    ManagerInv (m.set_state name v src) := by
  intro n
  unfold StateManager.set_state
  dsimp only
  by_cases hn : n = name
  · rw [if_pos hn]
    exact entryInv_appendSnapshot _ _ _ _ hmh (h name)
  · rw [if_neg hn]
    exact h n

theorem maxHistory_applyOp (m : StateManager) (op : SyncOp) :
    (applyOp m op).max_history = m.max_history := by
  cases op with
  | set n v => rfl
  | update n p mg => rfl
  | sync n cs cv =>
    unfold applyOp StateManager.sync_from_client
    dsimp only
    by_cases hc : cv = entryVersion (m.states n)
    · rw [if_pos hc]
      rfl
    · rw [if_neg hc]
      cases m.conflict_resolution <;> rfl

theorem managerInv_applyOp (m : StateManager) (op : SyncOp)
    (hmh : 1 ≤ m.max_history) (h : ManagerInv m) : ManagerInv (applyOp m op) := by
  cases op with
  | set n v => exact managerInv_set_state m n v "internal" hmh h
  | update n p mg =>
    exact managerInv_set_state m n _ "internal" hmh h
  | sync n cs cv =>
    unfold applyOp StateManager.sync_from_client
    dsimp only
    by_cases hc : cv = entryVersion (m.states n)
    · rw [if_pos hc]
      exact managerInv_set_state m n cs "external" hmh h
    · rw [if_neg hc]
      cases m.conflict_resolution with
      | server_wins => exact h
      | client_wins => exact managerInv_set_state m n cs "external" hmh h
      | latest_wins => exact managerInv_set_state m n cs "external" hmh h
      | merge => exact managerInv_set_state m n _ "external" hmh h
      | custom f => exact managerInv_set_state m n _ "external" hmh h

theorem managerInv_runOps :
    ∀ (ops : List SyncOp) (m : StateManager), 1 ≤ m.max_history → ManagerInv m →
      ManagerInv (runOps m ops) ∧ (runOps m ops).max_history = m.max_history
  | [], m, _, h => ⟨h, rfl⟩
  | op :: ops, m, hmh, h => by
      have h1 := managerInv_applyOp m op hmh h
      have h2 := maxHistory_applyOp m op
      have h3 := managerInv_runOps ops (applyOp m op) (by rw [h2]; exact hmh) h1
      exact ⟨h3.1, h3.2.trans h2⟩

theorem entryVersion_set_state_le (m : StateManager) (name : String) (v : StateMap)
    (src : String) (n : String) (hmh : 1 ≤ m.max_history) :
    entryVersion (m.states n) ≤ entryVersion ((m.set_state name v src).states n) := by
  unfold StateManager.set_state
  dsimp only
  by_cases hn : n = name
  · rw [if_pos hn, hn]
    rw [entryVersion_appendSnapshot m.max_history (m.states name) v src hmh]
    omega
  · rw [if_neg hn]

theorem entryVersion_applyOp_le (m : StateManager) (op : SyncOp) (n : String)
    (hmh : 1 ≤ m.max_history) :
    entryVersion (m.states n) ≤ entryVersion ((applyOp m op).states n) := by
  cases op with
  | set n0 v => exact entryVersion_set_state_le m n0 v "internal" n hmh
  | update n0 p mg => exact entryVersion_set_state_le m n0 _ "internal" n hmh
  | sync n0 cs cv =>
    unfold applyOp StateManager.sync_from_client
    dsimp only
    by_cases hc : cv = entryVersion (m.states n0)
    · rw [if_pos hc]
      exact entryVersion_set_state_le m n0 cs "external" n hmh
    · rw [if_neg hc]
      cases m.conflict_resolution with
      | server_wins => exact Nat.le_refl _
      | client_wins => exact entryVersion_set_state_le m n0 cs "external" n hmh
      | latest_wins => exact entryVersion_set_state_le m n0 cs "external" n hmh
      | merge => exact entryVersion_set_state_le m n0 _ "external" n hmh
      | custom f => exact entryVersion_set_state_le m n0 _ "external" n hmh

theorem entryVersion_runOps_le :
    ∀ (ops : List SyncOp) (m : StateManager) (n : String), 1 ≤ m.max_history →
      entryVersion (m.states n) ≤ entryVersion ((runOps m ops).states n)
  | [], m, n, _ => Nat.le_refl _
  | op :: ops, m, n, hmh => by
      have h1 := entryVersion_applyOp_le m op n hmh
      have h2 := entryVersion_runOps_le ops (applyOp m op) n
        (by rw [maxHistory_applyOp]; exact hmh)
      exact h1.trans h2

/-- Whether a call is a write (`set_state` / `update_state`) to a given name. -/
def OpWritesTo : SyncOp → String → Prop
  | .set n _, name => n = name
  | .update n _ _, name => n = name
  | .sync _ _ _, _ => False

theorem entryVersion_applyOp_writes (m : StateManager) (op : SyncOp) (name : String)
    (hw : OpWritesTo op name) (hmh : 1 ≤ m.max_history) :
    1 ≤ entryVersion ((applyOp m op).states name) := by
  cases op with
  | set n0 v =>
    have hn : n0 = name := hw
    unfold applyOp StateManager.set_state
    dsimp only
    rw [if_pos hn.symm, hn]
    rw [entryVersion_appendSnapshot m.max_history (m.states name) v "internal" hmh]
    omega
  | update n0 p mg =>
    have hn : n0 = name := hw
    unfold applyOp StateManager.update_state StateManager.set_state
    dsimp only
    rw [if_pos hn.symm, hn]
    rw [entryVersion_appendSnapshot m.max_history (m.states name) _ "internal" hmh]
    omega
  | sync n0 cs cv => cases hw

/-- C4 (amended; spec-modelled, sync.py absent from the source tree): after
any finite sequence of `set_state` / `update_state` / `sync_from_client`
calls on a fresh manager with `max_history ≥ 1`, every name's entry
satisfies: the history holds at most `max_history` snapshots; the last
snapshot's state equals the current value; the recorded versions are strictly
increasing by exactly 1 (a consecutive run ending at the current version);
they start at 1 as long as the current version has not exceeded
`max_history` (i.e. until FIFO eviction begins — after eviction the run
starts at `version - length + 1 > 1`, since survivors are never renumbered);
and the history is non-empty once any write to that name has occurred. -/
theorem state_manager_history_invariant (mh : Nat) (cr : ConflictResolution)
    (ops : List SyncOp) (name : String) (hmh : 1 ≤ mh) :
    (entryAfter mh cr ops name).history.length ≤ mh
    ∧ (∀ s, (entryAfter mh cr ops name).history.getLast? = some s →
        s.state = (entryAfter mh cr ops name).current)
    ∧ versionsOf (entryAfter mh cr ops name)
        = versionsFrom (entryVersion (entryAfter mh cr ops name) + 1
            - (entryAfter mh cr ops name).history.length)
          (entryAfter mh cr ops name).history.length
    ∧ (entryVersion (entryAfter mh cr ops name) ≤ mh →
        versionsOf (entryAfter mh cr ops name)
          = versionsFrom 1 (entryVersion (entryAfter mh cr ops name)))
    ∧ ((∃ op ∈ ops, OpWritesTo op name) → (entryAfter mh cr ops name).history ≠ []) := by
  have hrun := managerInv_runOps ops (StateManager.init mh cr) hmh (managerInv_init mh cr)
  have hI : EntryInv mh (entryAfter mh cr ops name) := by
    have h1 := hrun.1 name
    rw [hrun.2] at h1
    exact h1
  obtain ⟨hver, hlen, hlast⟩ := hI
  refine ⟨by omega, hlast, hver, ?_, ?_⟩
  · intro hKle
    rw [hver]
    congr 1 <;> omega
  · rintro ⟨op, hmem, hw⟩
    obtain ⟨l1, l2, hsplit⟩ := List.append_of_mem hmem
    have hmax1 : (runOps (StateManager.init mh cr) l1).max_history = mh :=
      (managerInv_runOps l1 (StateManager.init mh cr) hmh (managerInv_init mh cr)).2
    have h1 : entryAfter mh cr ops name =
        (runOps (applyOp (runOps (StateManager.init mh cr) l1) op) l2).states name := by
      unfold entryAfter runOps
      rw [hsplit, List.foldl_append, List.foldl_cons]
    have hv1 : 1 ≤ entryVersion
        ((applyOp (runOps (StateManager.init mh cr) l1) op).states name) :=
      entryVersion_applyOp_writes _ op name hw (by rw [hmax1]; exact hmh)
    have hv2 := entryVersion_runOps_le l2
      (applyOp (runOps (StateManager.init mh cr) l1) op) name
      (by rw [maxHistory_applyOp, hmax1]; exact hmh)
    have hK1 : 1 ≤ entryVersion (entryAfter mh cr ops name) := by
      rw [h1]
      exact hv1.trans hv2
    have hlenpos : 0 < (entryAfter mh cr ops name).history.length := by omega
    exact List.length_pos.mp hlenpos

/-- Two writes to the same name under `max_history = 1`: the first snapshot
(version 1) is evicted. -/
def opsEvict : List SyncOp :=
  [SyncOp.set "s" [("v", Value.num 1)], SyncOp.set "s" [("v", Value.num 2)]]

/-- C4 (counterexample): with `max_history = 1`, after two `set_state` calls
the history of `"s"` is non-empty but its versions are `[2]` — they do not
start at 1, because FIFO eviction dropped version 1 without renumbering —
refuting the claim's "strictly increasing by 1 starting at 1" for every
sequence of writes. -/
theorem state_manager_versions_start_counterexample :
    versionsOf (entryAfter 1 ConflictResolution.client_wins opsEvict "s") = [2]
    ∧ (entryAfter 1 ConflictResolution.client_wins opsEvict "s").history ≠ []
    ∧ 1 ∉ versionsOf (entryAfter 1 ConflictResolution.client_wins opsEvict "s") := by
  refine ⟨rfl, ?_, by decide⟩
  intro hnil
  have hv : versionsOf (entryAfter 1 ConflictResolution.client_wins opsEvict "s") = [2] := rfl
  unfold versionsOf at hv
  rw [hnil] at hv
  simp at hv

/-- A write, a merge update, and an in-sync client sync on one name. -/
def opsW : List SyncOp :=
  [SyncOp.set "s" [("a", Value.num 1)],
   SyncOp.update "s" [("b", Value.num 2)] true,
   SyncOp.sync "s" [("a", Value.num 5)] 2]

/-- Witness for the amended C4 on a concrete three-call sequence. -/
theorem state_manager_history_invariant_witness :
    (entryAfter 50 ConflictResolution.merge opsW "s").history.length ≤ 50
    ∧ versionsOf (entryAfter 50 ConflictResolution.merge opsW "s")
        = versionsFrom 1 (entryVersion (entryAfter 50 ConflictResolution.merge opsW "s")) :=
  ⟨(state_manager_history_invariant 50 ConflictResolution.merge opsW "s" (by decide)).1,
   (state_manager_history_invariant 50 ConflictResolution.merge opsW "s" (by decide)).2.2.2.1
     (by decide)⟩
